import Mathlib

/-!
Verification of the ClipFile backend core (app/main.py, whisper_api.py).

Shallow embedding of the highlight-selection, caption-building and job
orchestration logic of `app/main.py`, together with the transcription
collaborator `whisper_api.py`.  Python floats are modelled as `ℚ` (all
arithmetic in the program is on time values obtained from, and compared
with, decimal literals), Python dicts with a fixed shape are modelled as
structures, and JSON-shaped collaborator responses are modelled as
`Except`/`Option` values.  File-system and process effects of the
orchestrator (`upload_and_process`) are modelled by an explicit oracle for
each external call and an explicit trace of the progress values written.
-/

/-- A transcription word as consumed by `app/main.py`
(`{"word": ..., "start": ..., "end": ...}`). -/
structure Word where
  word : String
  start : ℚ
  «end» : ℚ

/-- One subtitle event of `build_ass`, in clip-local time: the pair of
offsets written into a `Dialogue:` line (before `ts_ass` formatting,
which is part of the external subtitle serialization) and its text. -/
structure CaptionEvent where
  start_offset : ℚ
  end_offset : ℚ
  text : String

/-- Constant `MIN_CLIP = 20` from the CONFIG block. -/
def MIN_CLIP : ℕ := 20

/-- Constant `MAX_CLIP = 30` from the CONFIG block. -/
def MAX_CLIP : ℕ := 30

/-- Constant `MAX_WORDS_ON_SCREEN = 2` from the CONFIG block. -/
def MAX_WORDS_ON_SCREEN : ℕ := 2

/-- Character-list test that the second list begins with the first. -/
def startsWithChars : List Char → List Char → Bool
  | [], _ => true
  | _ :: _, [] => false
  | a :: as, b :: bs => a == b && startsWithChars as bs

/-- Python test `needle in hay` on strings, on the character-list view:
`hay` has `need` as a contiguous substring. -/
def hasSub (need : List Char) : List Char → Bool
  | [] => need.isEmpty
  | c :: rest => startsWithChars need (c :: rest) || hasSub need rest

/-- The laughter-marker list of `score_window`:
`["ja", "ha", "lol", "laugh"]`. -/
def laughMarkers : List String := ["ja", "ha", "lol", "laugh"]

/-- The loop body of `score_window`: skip a word failing the overlap test
(`w["end"] < start_t or w["start"] > end_t`), otherwise add `1.0`, plus
`3.0` if the lowercased text contains a laughter marker, plus `1.5` if it
contains `"!"`. -/
def scoreStep (start_t end_t : ℚ) (acc : ℚ) (w : Word) : ℚ :=
  if w.«end» < start_t ∨ w.start > end_t then acc
  else
    let txt := w.word.toLower.toList
    let s1 := acc + 1
    let s2 := if laughMarkers.any (fun x => hasSub x.toList txt) then s1 + 3 else s1
    if hasSub "!".toList txt then s2 + 1.5 else s2

/-- Embedding of `score_window(words, start_t, end_t)` from `app/main.py`. -/
def score_window (words : List Word) (start_t end_t : ℚ) : ℚ :=
  let score := words.foldl (scoreStep start_t end_t) 0
  let duration := max (end_t - start_t) 1
  score / duration

/-- The duration loop `range(MIN_CLIP, MAX_CLIP + 1, 2)` of
`pick_best_window`. -/
def durations : List ℕ := List.range' MIN_CLIP (((MAX_CLIP + 1) - MIN_CLIP + 1) / 2) 2

/-- Number of iterations of the inner `while t + dur <= total_dur` loop of
`pick_best_window`: `t` starts at `0.0` and advances by `step = 1.0`, so it
takes exactly the values `0, 1, …, ⌊total_dur − dur⌋` (none if
`dur > total_dur`). -/
def numStarts (dur : ℕ) (total : ℚ) : ℕ :=
  if (dur : ℚ) ≤ total then (⌊total - (dur : ℚ)⌋.toNat + 1) else 0

/-- The start times visited by the inner loop of `pick_best_window` for a
given duration, in visiting order. -/
def starts (dur : ℕ) (total : ℚ) : List ℚ :=
  (List.range (numStarts dur total)).map (fun k : ℕ => (k : ℚ))

/-- All candidate windows `(t, t + dur)` visited by `pick_best_window`, in
visiting order: durations ascending (outer loop), starts ascending (inner
loop). -/
def candidates (total : ℚ) : List (ℚ × ℚ) :=
  (durations.map (fun d => (starts d total).map (fun t => (t, t + (d : ℚ))))).flatten

/-- The update of `(best, best_score)` performed for one candidate window:
`if s > best_score: best_score = s; best = (t, t + dur)`. -/
def bestStep (words : List Word) (st : (ℚ × ℚ) × ℚ) (c : ℚ × ℚ) : (ℚ × ℚ) × ℚ :=
  if st.2 < score_window words c.1 c.2 then (c, score_window words c.1 c.2) else st

/-- Embedding of `pick_best_window(words, total_dur)` from `app/main.py`: fold the
strict-improvement update over all candidates in visiting order, starting
from `best = (0, MIN_CLIP)`, `best_score = -1`. -/
def pick_best_window (words : List Word) (total_dur : ℚ) : ℚ × ℚ :=
  ((candidates total_dur).foldl (bestStep words) ((0, (MIN_CLIP : ℚ)), -1)).1

/-- The loop body of `build_ass`: state is `(lines, buf, buf_start)`.
A non-overlapping word is skipped; otherwise its span is clipped to the
window, it is appended to the buffer, and a full buffer
(`len(buf) >= MAX_WORDS_ON_SCREEN`) is flushed as one event. -/
def assStep (clip_start clip_end : ℚ)
    (st : List CaptionEvent × List String × Option ℚ) (w : Word) :
    List CaptionEvent × List String × Option ℚ :=
  if w.«end» < clip_start ∨ w.start > clip_end then st
  else
    let t0 := max w.start clip_start - clip_start
    let t1 := min w.«end» clip_end - clip_start
    let bs := st.2.2.getD t0
    let buf := st.2.1 ++ [w.word]
    if MAX_WORDS_ON_SCREEN ≤ buf.length then
      (st.1 ++ [⟨bs, t1, String.intercalate " " buf⟩], [], none)
    else
      (st.1, buf, some bs)

/-- The trailing flush of `build_ass`
(`if buf and buf_start is not None: ...`): a leftover partial buffer is
emitted with end offset `clip_end - clip_start`. -/
def finishState (clip_start clip_end : ℚ)
    (st : List CaptionEvent × List String × Option ℚ) : List CaptionEvent :=
  match st.2.1, st.2.2 with
  | [], _ => st.1
  | _ :: _, none => st.1
  | _ :: _, some bs =>
      st.1 ++ [⟨bs, clip_end - clip_start, String.intercalate " " st.2.1⟩]

/-- The event sequence written by `build_ass(words, clip_start, clip_end, ass_path)`:
the `Dialogue:` lines it appends after the fixed style header, as
(start offset, end offset, text) triples.  The textual encoding
(`ts_ass` timestamps, ASS header) is the external subtitle format. -/
def build_ass_events (words : List Word) (clip_start clip_end : ℚ) : List CaptionEvent :=
  finishState clip_start clip_end
    (words.foldl (assStep clip_start clip_end) ([], [], none))

/-- The retention test of `build_ass` (and `score_window`): the word is
kept iff not `w["end"] < clip_start or w["start"] > clip_end`. -/
def keepWord (clip_start clip_end : ℚ) (w : Word) : Bool :=
  decide (¬ (w.«end» < clip_start ∨ w.start > clip_end))

/-- Closed form of `build_ass` on a list of retained words: groups of
`MAX_WORDS_ON_SCREEN = 2` produce one event from the first word's clipped
start to the second word's clipped end; a trailing single word produces
one event ending at the full window duration. -/
def pairEvts (clip_start clip_end : ℚ) : List Word → List CaptionEvent
  | [] => []
  | [w] => [⟨max w.start clip_start - clip_start, clip_end - clip_start,
      String.intercalate " " [w.word]⟩]
  | w1 :: w2 :: rest =>
      ⟨max w1.start clip_start - clip_start, min w2.«end» clip_end - clip_start,
        String.intercalate " " [w1.word, w2.word]⟩ :: pairEvts clip_start clip_end rest

/-- Oracle for the external calls made by one run of `upload_and_process`:
the media-tool invocations (audio extraction, duration probe, trim,
render) and the transcription collaborator response.  The pod response is
the result of `requests.post` + `raise_for_status` + `.json()`: an error,
or a JSON object whose `"words"` field is absent (`none`) or present
(`some`). -/
structure Oracle where
  extractAudio : Except String Unit
  podResponse : Except String (Option (List Word))
  probeDuration : Except String ℚ
  trimClip : Except String Unit
  renderFinal : Except String Unit

/-- Embedding of `pod_transcribe_words` from `app/main.py`: propagate a transport/HTTP
error, raise `RuntimeError` when `"words" not in data`, otherwise return
`data["words"]`. -/
def pod_transcribe_words (resp : Except String (Option (List Word))) :
    Except String (List Word) :=
  match resp with
  | Except.error e => Except.error e
  | Except.ok none => Except.error "Respuesta POD invalida"
  | Except.ok (some ws) => Except.ok ws

/-- Observable outcome of one `upload_and_process` request:
the values passed to `write_progress` in order, whether the final output
file (the artifact served by `/download/{job_id}`) was produced, and the
handler's response — `Except.error` models an exception escaping the
handler (there is no `try`/`except` in `upload_and_process`). -/
structure RunResult where
  progressWrites : List Int
  outputWritten : Bool
  response : Except String (ℚ × ℚ)

/-- Embedding of `upload_and_process` from `app/main.py`, stage by stage:
write 5, extract audio, write 20, transcribe, write 45, probe duration,
pick the best window, write 60, trim, build the ASS file, write 75,
render, write 100, return `clip_start`/`clip_end`. -/
def upload_and_process (ora : Oracle) : RunResult :=
  match ora.extractAudio with
  | Except.error e => ⟨[5], false, Except.error e⟩
  | Except.ok _ =>
    match pod_transcribe_words ora.podResponse with
    | Except.error e => ⟨[5, 20], false, Except.error e⟩
    | Except.ok words =>
      match ora.probeDuration with
      | Except.error e => ⟨[5, 20, 45], false, Except.error e⟩
      | Except.ok total_dur =>
        let w := pick_best_window words total_dur
        match ora.trimClip with
        | Except.error e => ⟨[5, 20, 45, 60], false, Except.error e⟩
        | Except.ok _ =>
          let _events := build_ass_events words w.1 w.2
          match ora.renderFinal with
          | Except.error e => ⟨[5, 20, 45, 60, 75], false, Except.error e⟩
          | Except.ok _ => ⟨[5, 20, 45, 60, 75, 100], true, Except.ok w⟩

/-- A word object of `faster_whisper` as read by `whisper_api.py`
(`w.word`, `w.start`, `w.end`). -/
structure WhisperWord where
  word : String
  start : ℚ
  «end» : ℚ

/-- A `faster_whisper` segment as read by `whisper_api.py`: `s.words` is
`None` (no word timestamps) or a list of words; `if s.words:` skips both
`None` and the empty list. -/
structure Segment where
  words : Option (List WhisperWord)

/-- The word list accumulated by `_transcribe_sync` in `whisper_api.py`:
for every segment with a truthy `words` attribute, each word is appended
as `{"word": w.word.strip(), "start": float(w.start), "end": float(w.end)}`. -/
def transcribeSyncWords (segments : List Segment) : List Word :=
  segments.foldl (fun acc s =>
    match s.words with
    | none => acc
    | some ws =>
        if ws.isEmpty then acc
        else acc ++ ws.map (fun w => ⟨w.word.trim, w.start, w.«end»⟩)) []

/-- The value returned by `_transcribe_sync` in `whisper_api.py`:
`{"language": info.language, "words": words}` — viewed through the shape
checked by `pod_transcribe_words`, the `"words"` key is always present
(`some`), bound to the accumulated (possibly empty) word list. -/
structure TranscribeResponse where
  language : String
  words : Option (List Word)

/-- Embedding of `_transcribe_sync(audio_bytes)` of `whisper_api.py`, as a function of
the segments produced by the model and the detected language (the audio
decoding and the model itself are the external collaborator). -/
def _transcribe_sync (segments : List Segment) (lang : String) : TranscribeResponse :=
  ⟨lang, some (transcribeSyncWords segments)⟩

/-- Spec-side per-word bonus (section 4.1 of the spec): `3.0` for a
laughter-marker word, `1.5` for a word containing `"!"`, additive. -/
def specWordBonus (w : Word) : ℚ :=
  (if laughMarkers.any (fun x => hasSub x.toList w.word.toLower.toList) then 3 else 0) +
  (if hasSub "!".toList w.word.toLower.toList then 1.5 else 0)

/-- Spec-side score of window `[t, t + d]`, following the spec's wording:
`1.0` per word passing the overlap test `word.end ≥ t ∧ word.start ≤ t + d`,
plus the per-word bonuses, all divided by `max d 1`; non-overlapping words
contribute nothing. -/
def spec_score (words : List Word) (t d : ℚ) : ℚ :=
  ((words.filter (fun w => decide (t ≤ w.«end» ∧ w.start ≤ t + d))).map
    (fun w => 1 + specWordBonus w)).sum / max d 1

/-- Strict lexicographic order on windows by (duration, start) — the
spec's tie-break order. -/
def winLexLt (a b : ℚ × ℚ) : Prop :=
  a.2 - a.1 < b.2 - b.1 ∨ (a.2 - a.1 = b.2 - b.1 ∧ a.1 < b.1)

theorem durations_eq : durations = [20, 22, 24, 26, 28, 30] := rfl

theorem durations_bounds : ∀ d ∈ durations, MIN_CLIP ≤ d ∧ d ≤ MAX_CLIP := by decide

theorem score_window_nil (a b : ℚ) : score_window [] a b = 0 := by
  simp [score_window]

theorem candidates_15 : candidates 15 = [] := by
  norm_num [candidates, durations_eq, starts, numStarts]

theorem candidates_20 : candidates 20 = [((0 : ℚ), (0 : ℚ) + ((20 : ℕ) : ℚ))] := by
  norm_num [candidates, durations_eq, starts, numStarts, List.range_succ]

theorem pick_best_window_nil_15 : pick_best_window [] 15 = (0, 20) := by
  unfold pick_best_window
  rw [candidates_15]
  norm_num [MIN_CLIP]

theorem scoreStep_eq (start_t end_t a : ℚ) (w : Word)
    (h : ¬ (w.«end» < start_t ∨ w.start > end_t)) :
    scoreStep start_t end_t a w = a + (1 + specWordBonus w) := by
  simp only [scoreStep, specWordBonus, if_neg h]
  split_ifs <;> ring

theorem scoreStep_skip (start_t end_t a : ℚ) (w : Word)
    (h : w.«end» < start_t ∨ w.start > end_t) :
    scoreStep start_t end_t a w = a := by
  simp only [scoreStep, if_pos h]

theorem foldl_scoreStep (start_t end_t : ℚ) :
    ∀ (ws : List Word) (a : ℚ),
      ws.foldl (scoreStep start_t end_t) a =
        a + ((ws.filter (fun w => decide (start_t ≤ w.«end» ∧ w.start ≤ end_t))).map
          (fun w => 1 + specWordBonus w)).sum := by
  intro ws
  induction ws with
  | nil => intro a; simp
  | cons w ws ih =>
    intro a
    by_cases h : w.«end» < start_t ∨ w.start > end_t
    · have hf : (decide (start_t ≤ w.«end» ∧ w.start ≤ end_t)) = false := by
        simp only [decide_eq_false_iff_not]
        rcases h with h | h
        · exact fun hc => absurd hc.1 (not_le.mpr h)
        · exact fun hc => absurd hc.2 (not_le.mpr h)
      simp only [List.foldl_cons, scoreStep_skip _ _ _ _ h, List.filter_cons, hf]
      exact ih a
    · have ht : (decide (start_t ≤ w.«end» ∧ w.start ≤ end_t)) = true := by
        push_neg at h
        simp only [decide_eq_true_eq]
        exact h
      simp only [List.foldl_cons, scoreStep_eq _ _ _ _ h, List.filter_cons, ht,
        if_true, List.map_cons, List.sum_cons]
      rw [ih]
      ring

/-- Claim C4: for every word sequence and window `[t, t + d]`, the score
computed by `score_window` equals the spec's formula — `1.0` per word
passing the overlap test `word.end ≥ t ∧ word.start ≤ t + d`, plus an
additive `3.0` laughter bonus and `1.5` bang bonus per overlapping word,
divided by `max d 1`; non-overlapping words contribute nothing. -/
theorem score_window_matches_spec (words : List Word) (t d : ℚ) :
    score_window words t (t + d) = spec_score words t d := by
  unfold score_window spec_score
  rw [foldl_scoreStep, zero_add, add_sub_cancel_left]

theorem scoreStep_le (start_t end_t a : ℚ) (w : Word) :
    a ≤ scoreStep start_t end_t a w := by
  by_cases h : w.«end» < start_t ∨ w.start > end_t
  · rw [scoreStep_skip _ _ _ _ h]
  · rw [scoreStep_eq _ _ _ _ h]
    have hb : 0 ≤ specWordBonus w := by
      unfold specWordBonus
      split_ifs <;> norm_num
    linarith

theorem foldl_scoreStep_le (start_t end_t : ℚ) :
    ∀ (ws : List Word) (a : ℚ), a ≤ ws.foldl (scoreStep start_t end_t) a := by
  intro ws
  induction ws with
  | nil => intro a; simp
  | cons w ws ih =>
    intro a
    exact le_trans (scoreStep_le start_t end_t a w) (ih _)

theorem score_window_nonneg (words : List Word) (a b : ℚ) :
    0 ≤ score_window words a b := by
  unfold score_window
  apply div_nonneg
  · simpa using foldl_scoreStep_le a b words 0
  · exact le_trans zero_le_one (le_max_right _ _)

theorem bestFold_snd_le (words : List Word) :
    ∀ (l : List (ℚ × ℚ)) (st : (ℚ × ℚ) × ℚ),
      st.2 ≤ (l.foldl (bestStep words) st).2 := by
  intro l
  induction l with
  | nil => intro st; exact le_refl _
  | cons c t ih =>
    intro st
    rw [List.foldl_cons]
    refine le_trans ?_ (ih (bestStep words st c))
    unfold bestStep
    split_ifs with h
    · exact le_of_lt h
    · exact le_refl _

theorem bestFold_ub (words : List Word) :
    ∀ (l : List (ℚ × ℚ)) (st : (ℚ × ℚ) × ℚ) (c : ℚ × ℚ), c ∈ l →
      score_window words c.1 c.2 ≤ (l.foldl (bestStep words) st).2 := by
  intro l
  induction l with
  | nil => intro st c hc; cases hc
  | cons hd t ih =>
    intro st c hc
    rw [List.foldl_cons]
    rcases List.mem_cons.mp hc with rfl | hct
    · refine le_trans ?_ (bestFold_snd_le words t (bestStep words st c))
      unfold bestStep
      split_ifs with h
      · exact le_refl _
      · exact le_of_not_lt h
    · exact ih (bestStep words st hd) c hct

theorem bestFold_cases (words : List Word) :
    ∀ (l : List (ℚ × ℚ)) (st : (ℚ × ℚ) × ℚ),
      l.foldl (bestStep words) st = st ∨
      ((l.foldl (bestStep words) st).1 ∈ l ∧
       score_window words (l.foldl (bestStep words) st).1.1
         (l.foldl (bestStep words) st).1.2 = (l.foldl (bestStep words) st).2 ∧
       st.2 < (l.foldl (bestStep words) st).2) := by
  intro l
  induction l with
  | nil => intro st; exact Or.inl rfl
  | cons hd t ih =>
    intro st
    rw [List.foldl_cons]
    by_cases h : st.2 < score_window words hd.1 hd.2
    · have hstep : bestStep words st hd = (hd, score_window words hd.1 hd.2) := by
        unfold bestStep; rw [if_pos h]
      rw [hstep]
      rcases ih (hd, score_window words hd.1 hd.2) with heq | ⟨hm, hs, hlt⟩
      · right
        rw [heq]
        exact ⟨List.mem_cons_self _ _, rfl, h⟩
      · right
        exact ⟨List.mem_cons_of_mem _ hm, hs, lt_trans h hlt⟩
    · have hstep : bestStep words st hd = st := by
        unfold bestStep; rw [if_neg h]
      rw [hstep]
      rcases ih st with heq | ⟨hm, hs, hlt⟩
      · exact Or.inl heq
      · exact Or.inr ⟨List.mem_cons_of_mem _ hm, hs, hlt⟩

theorem bestFold_first (words : List Word) {R : ℚ × ℚ → ℚ × ℚ → Prop} :
    ∀ (l : List (ℚ × ℚ)) (st : (ℚ × ℚ) × ℚ), l.Pairwise R → ∀ c ∈ l,
      score_window words c.1 c.2 = (l.foldl (bestStep words) st).2 →
      (l.foldl (bestStep words) st).1 = c ∨ R (l.foldl (bestStep words) st).1 c ∨
        l.foldl (bestStep words) st = st := by
  intro l
  induction l with
  | nil => intro st _ c hc; cases hc
  | cons hd t ih =>
    intro st hp c hc hsc
    rw [List.foldl_cons] at hsc ⊢
    obtain ⟨hR, hpt⟩ := List.pairwise_cons.mp hp
    by_cases h : st.2 < score_window words hd.1 hd.2
    · have hstep : bestStep words st hd = (hd, score_window words hd.1 hd.2) := by
        unfold bestStep; rw [if_pos h]
      rw [hstep] at hsc ⊢
      rcases List.mem_cons.mp hc with rfl | hct
      · rcases bestFold_cases words t (c, score_window words c.1 c.2) with heq | ⟨_, _, hlt⟩
        · left; rw [heq]
        · exfalso
          rw [← hsc] at hlt
          exact lt_irrefl _ hlt
      · rcases ih (hd, score_window words hd.1 hd.2) hpt c hct hsc with h1 | h2 | h3
        · exact Or.inl h1
        · exact Or.inr (Or.inl h2)
        · refine Or.inr (Or.inl ?_)
          rw [h3]
          exact hR c hct
    · have hstep : bestStep words st hd = st := by
        unfold bestStep; rw [if_neg h]
      rw [hstep] at hsc ⊢
      rcases List.mem_cons.mp hc with rfl | hct
      · have h1 := bestFold_snd_le words t st
        have h2 : (t.foldl (bestStep words) st).2 = st.2 :=
          le_antisymm (by rw [← hsc]; exact le_of_not_lt h) h1
        rcases bestFold_cases words t st with heq | ⟨_, _, hlt⟩
        · exact Or.inr (Or.inr heq)
        · exfalso
          rw [h2] at hlt
          exact lt_irrefl _ hlt
      · exact ih st hpt c hct hsc

theorem lt_numStarts_iff {d : ℕ} {total : ℚ} {k : ℕ} :
    k < numStarts d total ↔ (k : ℚ) + (d : ℚ) ≤ total := by
  unfold numStarts
  split_ifs with h
  · rw [Nat.lt_succ_iff,
      Int.le_toNat (Int.floor_nonneg.mpr (by linarith)), Int.le_floor]
    push_cast
    constructor <;> intro <;> linarith
  · push_neg at h
    constructor
    · intro hk
      exact absurd hk (Nat.not_lt_zero k)
    · intro hk
      exfalso
      have h0 : (0 : ℚ) ≤ (k : ℚ) := Nat.cast_nonneg k
      linarith

theorem mem_candidates_iff {total : ℚ} {c : ℚ × ℚ} :
    c ∈ candidates total ↔
      ∃ d ∈ durations, ∃ k : ℕ,
        k < numStarts d total ∧ c = ((k : ℚ), (k : ℚ) + (d : ℚ)) := by
  unfold candidates
  constructor
  · intro hc
    rw [List.mem_flatten] at hc
    obtain ⟨bl, hbl, hcbl⟩ := hc
    rw [List.mem_map] at hbl
    obtain ⟨d, hd, rfl⟩ := hbl
    rw [List.mem_map] at hcbl
    obtain ⟨t, ht, rfl⟩ := hcbl
    unfold starts at ht
    rw [List.mem_map] at ht
    obtain ⟨k, hk, rfl⟩ := ht
    exact ⟨d, hd, k, List.mem_range.mp hk, rfl⟩
  · rintro ⟨d, hd, k, hk, rfl⟩
    rw [List.mem_flatten]
    refine ⟨(starts d total).map (fun t => (t, t + (d : ℚ))), List.mem_map_of_mem _ hd, ?_⟩
    refine List.mem_map_of_mem _ ?_
    unfold starts
    exact List.mem_map_of_mem _ (List.mem_range.mpr hk)

theorem candidates_pairwise (total : ℚ) : (candidates total).Pairwise winLexLt := by
  unfold candidates
  rw [List.pairwise_flatten]
  constructor
  · intro bl hbl
    rw [List.mem_map] at hbl
    obtain ⟨d, _, rfl⟩ := hbl
    rw [List.pairwise_map]
    unfold starts
    rw [List.pairwise_map]
    refine List.Pairwise.imp ?_ (List.pairwise_lt_range _)
    intro k1 k2 hk
    unfold winLexLt
    dsimp only
    right
    refine ⟨by ring, ?_⟩
    exact_mod_cast hk
  · rw [List.pairwise_map]
    have hdur : durations.Pairwise (· < ·) := by rw [durations_eq]; decide
    refine List.Pairwise.imp ?_ hdur
    intro d1 d2 h12 x hx y hy
    rw [List.mem_map] at hx hy
    obtain ⟨t1, _, rfl⟩ := hx
    obtain ⟨t2, _, rfl⟩ := hy
    unfold winLexLt
    dsimp only
    left
    simp only [add_sub_cancel_left]
    exact_mod_cast h12

/-- Claim C1 (amended): whenever the total duration is at least `MIN_CLIP`,
`pick_best_window` returns a window `(start, end)` with
`MIN_CLIP ≤ end − start ≤ MAX_CLIP`, `0 ≤ start` and `end ≤ total_duration`.
The unamended claim is false: for `total_duration < MIN_CLIP` the fallback
`(0, MIN_CLIP)` exceeds the total duration (see the counterexample). -/
theorem pick_best_window_in_range (words : List Word) (total : ℚ)
    (h : (MIN_CLIP : ℚ) ≤ total) :
    (MIN_CLIP : ℚ) ≤ (pick_best_window words total).2 - (pick_best_window words total).1 ∧
    (pick_best_window words total).2 - (pick_best_window words total).1 ≤ (MAX_CLIP : ℚ) ∧
    0 ≤ (pick_best_window words total).1 ∧
    (pick_best_window words total).2 ≤ total := by
  unfold pick_best_window
  rcases bestFold_cases words (candidates total) ((0, (MIN_CLIP : ℚ)), -1) with heq | ⟨hm, _, _⟩
  · rw [heq]
    refine ⟨by rw [sub_zero], by rw [sub_zero]; norm_num [MIN_CLIP, MAX_CLIP],
      le_refl _, h⟩
  · rw [mem_candidates_iff] at hm
    obtain ⟨d, hd, k, hk, hc⟩ := hm
    rw [hc]
    obtain ⟨hd1, hd2⟩ := durations_bounds d hd
    have hk' : (k : ℚ) + (d : ℚ) ≤ total := lt_numStarts_iff.mp hk
    refine ⟨?_, ?_, ?_, ?_⟩
    · rw [add_sub_cancel_left]
      exact_mod_cast hd1
    · rw [add_sub_cancel_left]
      exact_mod_cast hd2
    · positivity
    · exact hk'

/-- Witness for C1 at `words = []`, `total_duration = 20`. -/
theorem pick_best_window_in_range_witness :
    (MIN_CLIP : ℚ) ≤ 20 ∧
    ((MIN_CLIP : ℚ) ≤ (pick_best_window [] 20).2 - (pick_best_window [] 20).1 ∧
     (pick_best_window [] 20).2 - (pick_best_window [] 20).1 ≤ (MAX_CLIP : ℚ) ∧
     0 ≤ (pick_best_window [] 20).1 ∧
     (pick_best_window [] 20).2 ≤ 20) :=
  ⟨by norm_num [MIN_CLIP], pick_best_window_in_range [] 20 (by norm_num [MIN_CLIP])⟩

/-- Counterexample to C1 as stated: at `words = []`, `total_duration = 15`,
`pick_best_window` returns the fallback `(0, MIN_CLIP) = (0, 20)`, whose
end exceeds the total duration. -/
theorem pick_best_window_exceeds_total_cex :
    pick_best_window [] 15 = (0, 20) ∧ ¬ ((pick_best_window [] 15).2 ≤ 15) := by
  refine ⟨pick_best_window_nil_15, ?_⟩
  rw [pick_best_window_nil_15]
  norm_num

/-- Claim C3: `pick_best_window` visits durations ascending
(`MIN_CLIP, MIN_CLIP+2, …, MAX_CLIP`) and, within each duration, start
times `0, 1, 2, …` while `t + d ≤ total_dur`, updating only on a strictly
greater score; hence among the candidate windows attaining the maximal
score it returns the one of smallest duration, and among those the one of
smallest start. -/
theorem pick_best_window_tie_break (words : List Word) (total : ℚ) (c : ℚ × ℚ)
    (hc : c ∈ candidates total)
    (hmax : ∀ c' ∈ candidates total,
      score_window words c'.1 c'.2 ≤ score_window words c.1 c.2) :
    pick_best_window words total ∈ candidates total ∧
    score_window words (pick_best_window words total).1 (pick_best_window words total).2 =
      score_window words c.1 c.2 ∧
    (pick_best_window words total).2 - (pick_best_window words total).1 ≤ c.2 - c.1 ∧
    ((pick_best_window words total).2 - (pick_best_window words total).1 = c.2 - c.1 →
      (pick_best_window words total).1 ≤ c.1) := by
  have hub := bestFold_ub words (candidates total) ((0, (MIN_CLIP : ℚ)), -1) c hc
  have hnn := score_window_nonneg words c.1 c.2
  have hcases := bestFold_cases words (candidates total) ((0, (MIN_CLIP : ℚ)), -1)
  have hfirstAll := bestFold_first words (candidates total) ((0, (MIN_CLIP : ℚ)), -1)
    (candidates_pairwise total) c hc
  unfold pick_best_window
  obtain ⟨F, hF⟩ :
      ∃ F, (candidates total).foldl (bestStep words) ((0, (MIN_CLIP : ℚ)), -1) = F :=
    ⟨_, rfl⟩
  rw [hF] at hub hcases hfirstAll ⊢
  rcases hcases with heq | ⟨hm, hs, _⟩
  · exfalso
    rw [heq] at hub
    dsimp only at hub
    linarith
  · have h1 : score_window words F.1.1 F.1.2 ≤ score_window words c.1 c.2 := hmax _ hm
    have heq2 : score_window words F.1.1 F.1.2 = score_window words c.1 c.2 :=
      le_antisymm h1 (hub.trans_eq hs.symm)
    have hsceq : score_window words c.1 c.2 = F.2 := heq2 ▸ hs
    rcases hfirstAll hsceq with h | h | h
    · rw [h]
      exact ⟨hc, rfl, le_refl _, fun _ => le_refl _⟩
    · unfold winLexLt at h
      rcases h with hlt | ⟨hde, hs1⟩
      · exact ⟨hm, heq2, le_of_lt hlt, fun hcon => absurd hcon (ne_of_lt hlt)⟩
      · exact ⟨hm, heq2, le_of_eq hde, fun _ => le_of_lt hs1⟩
    · exfalso
      have hF2 : F.2 = -1 := by rw [h]
      rw [hsceq, hF2] at hnn
      linarith

/-- Witness for C3 at `words = []`, `total = 20`, candidate `(0, 20)`
(the only candidate; all scores are `0`). -/
theorem pick_best_window_tie_break_witness :
    (((0 : ℚ), (0 : ℚ) + ((20 : ℕ) : ℚ)) ∈ candidates 20) ∧
    (∀ c' ∈ candidates 20, score_window [] c'.1 c'.2 ≤
      score_window [] ((0 : ℚ), (0 : ℚ) + ((20 : ℕ) : ℚ)).1
        ((0 : ℚ), (0 : ℚ) + ((20 : ℕ) : ℚ)).2) ∧
    (pick_best_window [] 20 ∈ candidates 20 ∧
     score_window [] (pick_best_window [] 20).1 (pick_best_window [] 20).2 =
       score_window [] ((0 : ℚ), (0 : ℚ) + ((20 : ℕ) : ℚ)).1
         ((0 : ℚ), (0 : ℚ) + ((20 : ℕ) : ℚ)).2 ∧
     (pick_best_window [] 20).2 - (pick_best_window [] 20).1 ≤
       ((0 : ℚ), (0 : ℚ) + ((20 : ℕ) : ℚ)).2 - ((0 : ℚ), (0 : ℚ) + ((20 : ℕ) : ℚ)).1 ∧
     ((pick_best_window [] 20).2 - (pick_best_window [] 20).1 =
        ((0 : ℚ), (0 : ℚ) + ((20 : ℕ) : ℚ)).2 - ((0 : ℚ), (0 : ℚ) + ((20 : ℕ) : ℚ)).1 →
       (pick_best_window [] 20).1 ≤ ((0 : ℚ), (0 : ℚ) + ((20 : ℕ) : ℚ)).1)) := by
  have hc : ((0 : ℚ), (0 : ℚ) + ((20 : ℕ) : ℚ)) ∈ candidates 20 := by
    rw [candidates_20]
    exact List.mem_singleton.mpr rfl
  have hmax : ∀ c' ∈ candidates 20, score_window [] c'.1 c'.2 ≤
      score_window [] ((0 : ℚ), (0 : ℚ) + ((20 : ℕ) : ℚ)).1
        ((0 : ℚ), (0 : ℚ) + ((20 : ℕ) : ℚ)).2 := by
    intro c' _
    rw [score_window_nil, score_window_nil]
  exact ⟨hc, hmax, pick_best_window_tie_break [] 20 _ hc hmax⟩

/-- Oracle of a run over a 15-second video: every external call succeeds,
the transcription yields an empty word list, and the duration probe
returns 15 < MIN_CLIP. -/
def shortOracle : Oracle :=
  ⟨Except.ok (), Except.ok (some []), Except.ok 15, Except.ok (), Except.ok ()⟩

/-- Claim C8 (the code contradicts it): with a media of total duration
`15 < MIN_CLIP = 20`, `upload_and_process` does not fail — it runs to
completion, writes progress 100, produces the output artifact, and acts
on the fallback window `(0, 20)`, which extends beyond the media's end. -/
theorem upload_and_process_short_video :
    upload_and_process shortOracle =
      ⟨[5, 20, 45, 60, 75, 100], true, Except.ok (pick_best_window [] 15)⟩ ∧
    pick_best_window [] 15 = (0, 20) ∧
    ¬ ((pick_best_window [] 15).2 ≤ 15) ∧
    (15 : ℚ) < (MIN_CLIP : ℚ) := by
  refine ⟨rfl, pick_best_window_nil_15, ?_, by norm_num [MIN_CLIP]⟩
  rw [pick_best_window_nil_15]
  norm_num

/-- Claim C2 (amended): `upload_and_process` has no error handler, so a
stage failure propagates synchronously to the requester (the handler's
result is the error); the stored progress remains at the last checkpoint
written before the failure — a prefix of `[5, 20, 45, 60, 75]`, all
positive, never a distinguished failure sentinel — and no output artifact
is produced, so the job never becomes downloadable. -/
theorem upload_and_process_failure_behavior (ora : Oracle)
    (h : (upload_and_process ora).response.isOk = false) :
    (upload_and_process ora).outputWritten = false ∧
    (upload_and_process ora).progressWrites <+: [5, 20, 45, 60, 75] ∧
    ∀ p ∈ (upload_and_process ora).progressWrites, 0 < p := by
  obtain ⟨ea, pr, pd, tc, rf⟩ := ora
  cases ea with
  | error e =>
    exact ⟨rfl, ⟨[20, 45, 60, 75], rfl⟩,
      show ∀ p ∈ ([5] : List Int), 0 < p by decide⟩
  | ok u =>
    cases pr with
    | error e =>
      exact ⟨rfl, ⟨[45, 60, 75], rfl⟩,
        show ∀ p ∈ ([5, 20] : List Int), 0 < p by decide⟩
    | ok od =>
      cases od with
      | none =>
        exact ⟨rfl, ⟨[45, 60, 75], rfl⟩,
          show ∀ p ∈ ([5, 20] : List Int), 0 < p by decide⟩
      | some ws =>
        cases pd with
        | error e =>
          exact ⟨rfl, ⟨[60, 75], rfl⟩,
            show ∀ p ∈ ([5, 20, 45] : List Int), 0 < p by decide⟩
        | ok total =>
          cases tc with
          | error e =>
            exact ⟨rfl, ⟨[75], rfl⟩,
              show ∀ p ∈ ([5, 20, 45, 60] : List Int), 0 < p by decide⟩
          | ok u2 =>
            cases rf with
            | error e =>
              exact ⟨rfl, ⟨[], rfl⟩,
                show ∀ p ∈ ([5, 20, 45, 60, 75] : List Int), 0 < p by decide⟩
            | ok u3 =>
              simp [upload_and_process, pod_transcribe_words, Except.isOk,
                Except.toBool] at h

/-- Oracle of a failing run: audio extraction succeeds, but the pod
response is a JSON object with no `"words"` field, so
`pod_transcribe_words` raises. -/
def cexOracle : Oracle :=
  ⟨Except.ok (), Except.ok none, Except.ok 100, Except.ok (), Except.ok ()⟩

/-- Counterexample to C2 as stated: when the transcription response lacks
the `"words"` field, the job's progress record is left at the ordinary
checkpoint 20 — no failure sentinel is ever written — and the raised
error is the handler's own (synchronous) response. -/
theorem upload_and_process_no_sentinel_cex :
    upload_and_process cexOracle =
      ⟨[5, 20], false, Except.error "Respuesta POD invalida"⟩ ∧
    (upload_and_process cexOracle).response.isOk = false ∧
    (upload_and_process cexOracle).progressWrites.getLast? = some 20 :=
  ⟨rfl, rfl, rfl⟩

/-- Witness for C2 (amended) at the failing-transcription oracle. -/
theorem upload_and_process_failure_behavior_witness :
    (upload_and_process cexOracle).response.isOk = false ∧
    ((upload_and_process cexOracle).outputWritten = false ∧
     (upload_and_process cexOracle).progressWrites <+: [5, 20, 45, 60, 75] ∧
     ∀ p ∈ (upload_and_process cexOracle).progressWrites, 0 < p) :=
  ⟨rfl, upload_and_process_failure_behavior cexOracle rfl⟩

/-- Claim C9: for every job that completes the pipeline successfully, the
progress values written are exactly `[5, 20, 45, 60, 75, 100]` — a
non-decreasing sequence ending at exactly 100. -/
theorem upload_and_process_progress_monotone (ora : Oracle)
    (h : (upload_and_process ora).response.isOk = true) :
    (upload_and_process ora).progressWrites = [5, 20, 45, 60, 75, 100] ∧
    List.Chain' (· ≤ ·) (upload_and_process ora).progressWrites ∧
    (upload_and_process ora).progressWrites.getLast? = some 100 := by
  obtain ⟨ea, pr, pd, tc, rf⟩ := ora
  cases ea with
  | error e =>
    simp [upload_and_process, Except.isOk, Except.toBool] at h
  | ok u =>
    cases pr with
    | error e =>
      simp [upload_and_process, pod_transcribe_words, Except.isOk, Except.toBool] at h
    | ok od =>
      cases od with
      | none =>
        simp [upload_and_process, pod_transcribe_words, Except.isOk, Except.toBool] at h
      | some ws =>
        cases pd with
        | error e =>
          simp [upload_and_process, pod_transcribe_words, Except.isOk, Except.toBool] at h
        | ok total =>
          cases tc with
          | error e =>
            simp [upload_and_process, pod_transcribe_words, Except.isOk,
              Except.toBool] at h
          | ok u2 =>
            cases rf with
            | error e =>
              simp [upload_and_process, pod_transcribe_words, Except.isOk,
                Except.toBool] at h
            | ok u3 =>
              exact ⟨rfl,
                show List.Chain' (· ≤ ·) ([5, 20, 45, 60, 75, 100] : List Int) by
                  norm_num [List.chain'_cons],
                rfl⟩

/-- Oracle of a fully successful run with an empty transcription. -/
def okOracle : Oracle :=
  ⟨Except.ok (), Except.ok (some []), Except.ok 100, Except.ok (), Except.ok ()⟩

/-- Witness for C9 at the all-successful oracle. -/
theorem upload_and_process_progress_monotone_witness :
    (upload_and_process okOracle).response.isOk = true ∧
    ((upload_and_process okOracle).progressWrites = [5, 20, 45, 60, 75, 100] ∧
     List.Chain' (· ≤ ·) (upload_and_process okOracle).progressWrites ∧
     (upload_and_process okOracle).progressWrites.getLast? = some 100) :=
  ⟨rfl, upload_and_process_progress_monotone okOracle rfl⟩

/-- Claim C10: whenever `_transcribe_sync` returns, its response has the
`"words"` key bound to a (possibly empty) list of words — each built as
`{"word": <string>, "start": <number>, "end": <number>}` by construction —
so on such a response the invalid-response `RuntimeError` branch of
`pod_transcribe_words` is unreachable: the orchestrator receives the word
list, never that error. -/
theorem transcribe_sync_words_always_present (segments : List Segment) (lang : String) :
    (_transcribe_sync segments lang).words = some (transcribeSyncWords segments) ∧
    pod_transcribe_words (Except.ok (_transcribe_sync segments lang).words) =
      Except.ok (transcribeSyncWords segments) :=
  ⟨rfl, rfl⟩

theorem keepWord_false {cs ce : ℚ} {w : Word} (h : w.«end» < cs ∨ w.start > ce) :
    keepWord cs ce w = false :=
  decide_eq_false (not_not_intro h)

theorem keepWord_true {cs ce : ℚ} {w : Word} (h : ¬ (w.«end» < cs ∨ w.start > ce)) :
    keepWord cs ce w = true :=
  decide_eq_true h

theorem keepWord_bounds {cs ce : ℚ} {w : Word} (h : keepWord cs ce w = true) :
    cs ≤ w.«end» ∧ w.start ≤ ce := by
  have h' := of_decide_eq_true h
  push_neg at h'
  exact h'

theorem foldl_assStep_filter (cs ce : ℚ) :
    ∀ (ws : List Word) (st : List CaptionEvent × List String × Option ℚ),
      ws.foldl (assStep cs ce) st =
        (ws.filter (keepWord cs ce)).foldl (assStep cs ce) st := by
  intro ws
  induction ws with
  | nil => intro st; rfl
  | cons w ws ih =>
    intro st
    rw [List.foldl_cons, List.filter_cons]
    by_cases h : w.«end» < cs ∨ w.start > ce
    · rw [keepWord_false h]
      have hst : assStep cs ce st w = st := by
        simp only [assStep]
        rw [if_pos h]
      simp only [Bool.false_eq_true, if_false]
      rw [hst]
      exact ih st
    · rw [keepWord_true h]
      simp only [if_true]
      rw [List.foldl_cons]
      exact ih _

/-- Two-step structural induction on word lists, matching the grouping of
`build_ass` into pairs. -/
def listPairInduction {motive : List Word → Prop} (nil : motive [])
    (single : ∀ w, motive [w])
    (pair : ∀ w1 w2 rest, motive rest → motive (w1 :: w2 :: rest)) : ∀ l, motive l
  | [] => nil
  | [w] => single w
  | w1 :: w2 :: rest => pair w1 w2 rest (listPairInduction nil single pair rest)

theorem foldl_assStep_kept (cs ce : ℚ) :
    ∀ l : List Word, (∀ w ∈ l, keepWord cs ce w = true) →
      ∀ evs : List CaptionEvent,
        finishState cs ce (l.foldl (assStep cs ce) (evs, [], none)) =
          evs ++ pairEvts cs ce l := by
  intro l
  induction l using listPairInduction with
  | nil =>
    intro _ evs
    simp [finishState, pairEvts]
  | single w =>
    intro hk evs
    have h : ¬ (w.«end» < cs ∨ w.start > ce) := of_decide_eq_true (hk w (by simp))
    simp [assStep, h, finishState, pairEvts, MAX_WORDS_ON_SCREEN]
  | pair w1 w2 rest ih =>
    intro hk evs
    have h1 : ¬ (w1.«end» < cs ∨ w1.start > ce) := of_decide_eq_true (hk w1 (by simp))
    have h2 : ¬ (w2.«end» < cs ∨ w2.start > ce) := of_decide_eq_true (hk w2 (by simp))
    have hs1 : assStep cs ce (evs, [], none) w1 =
        (evs, [w1.word], some (max w1.start cs - cs)) := by
      simp [assStep, h1, MAX_WORDS_ON_SCREEN]
    have hs2 : assStep cs ce (evs, [w1.word], some (max w1.start cs - cs)) w2 =
        (evs ++ [⟨max w1.start cs - cs, min w2.«end» ce - cs,
          String.intercalate " " [w1.word, w2.word]⟩], [], none) := by
      simp [assStep, h2, MAX_WORDS_ON_SCREEN]
    rw [List.foldl_cons, List.foldl_cons, hs1, hs2,
      ih (fun w hw => hk w (by simp [hw])) _]
    simp [pairEvts]

theorem build_ass_events_eq (words : List Word) (cs ce : ℚ) :
    build_ass_events words cs ce = pairEvts cs ce (words.filter (keepWord cs ce)) := by
  unfold build_ass_events
  rw [foldl_assStep_filter]
  have h := foldl_assStep_kept cs ce (words.filter (keepWord cs ce))
    (fun w hw => (List.mem_filter.mp hw).2) []
  simpa using h

theorem pairEvts_start_offset_mem (cs ce : ℚ) :
    ∀ l, ∀ ev ∈ pairEvts cs ce l, ∃ w ∈ l, ev.start_offset = max w.start cs - cs := by
  intro l
  induction l using listPairInduction with
  | nil => intro ev hev; simp [pairEvts] at hev
  | single w =>
    intro ev hev
    simp only [pairEvts, List.mem_singleton] at hev
    refine ⟨w, by simp, ?_⟩
    rw [hev]
  | pair w1 w2 rest ih =>
    intro ev hev
    simp only [pairEvts] at hev
    rcases List.mem_cons.mp hev with rfl | h
    · exact ⟨w1, by simp, rfl⟩
    · obtain ⟨w, hwmem, hws⟩ := ih ev h
      exact ⟨w, by simp [hwmem], hws⟩

theorem pairEvts_start_le_end (cs ce : ℚ) (hwin : cs ≤ ce) :
    ∀ l, List.Pairwise (fun a b => a.start ≤ b.start) l →
      (∀ w ∈ l, w.start ≤ w.«end») → (∀ w ∈ l, cs ≤ w.«end» ∧ w.start ≤ ce) →
      ∀ ev ∈ pairEvts cs ce l, ev.start_offset ≤ ev.end_offset := by
  intro l
  induction l using listPairInduction with
  | nil => intro _ _ _ ev hev; simp [pairEvts] at hev
  | single w =>
    intro _ _ hk ev hev
    simp only [pairEvts, List.mem_singleton] at hev
    subst hev
    dsimp only
    apply sub_le_sub_right
    exact max_le (hk w (by simp)).2 hwin
  | pair w1 w2 rest ih =>
    intro hsort hse hk ev hev
    simp only [pairEvts] at hev
    rcases List.mem_cons.mp hev with rfl | h
    · dsimp only
      apply sub_le_sub_right
      apply max_le
      · have h12 : w1.start ≤ w2.start := (List.pairwise_cons.mp hsort).1 w2 (by simp)
        have h2se : w2.start ≤ w2.«end» := hse w2 (by simp)
        exact le_min (le_trans h12 h2se) (hk w1 (by simp)).2
      · exact le_min (hk w2 (by simp)).1 hwin
    · exact ih (List.pairwise_cons.mp (List.pairwise_cons.mp hsort).2).2
        (fun w hw => hse w (by simp [hw]))
        (fun w hw => hk w (by simp [hw])) ev h

theorem pairEvts_offsets_in_range (cs ce : ℚ) (hwin : cs ≤ ce) :
    ∀ l, (∀ w ∈ l, cs ≤ w.«end» ∧ w.start ≤ ce) →
      ∀ ev ∈ pairEvts cs ce l,
        0 ≤ ev.start_offset ∧ ev.start_offset ≤ ce - cs ∧
        0 ≤ ev.end_offset ∧ ev.end_offset ≤ ce - cs := by
  intro l
  induction l using listPairInduction with
  | nil => intro _ ev hev; simp [pairEvts] at hev
  | single w =>
    intro hk ev hev
    simp only [pairEvts, List.mem_singleton] at hev
    subst hev
    refine ⟨sub_nonneg.mpr (le_max_right _ _),
      sub_le_sub_right (max_le (hk w (by simp)).2 hwin) _,
      sub_nonneg.mpr hwin, le_refl _⟩
  | pair w1 w2 rest ih =>
    intro hk ev hev
    simp only [pairEvts] at hev
    rcases List.mem_cons.mp hev with rfl | h
    · refine ⟨sub_nonneg.mpr (le_max_right _ _),
        sub_le_sub_right (max_le (hk w1 (by simp)).2 hwin) _,
        sub_nonneg.mpr (le_min (hk w2 (by simp)).1 hwin),
        sub_le_sub_right (min_le_right _ _) _⟩
    · exact ih (fun w hw => hk w (by simp [hw])) ev h

theorem pairEvts_starts_sorted (cs ce : ℚ) :
    ∀ l, List.Pairwise (fun a b => a.start ≤ b.start) l →
      (pairEvts cs ce l).Pairwise (fun e1 e2 => e1.start_offset ≤ e2.start_offset) := by
  intro l
  induction l using listPairInduction with
  | nil => intro _; simp [pairEvts]
  | single w => intro _; simp [pairEvts]
  | pair w1 w2 rest ih =>
    intro hsort
    simp only [pairEvts]
    rw [List.pairwise_cons]
    constructor
    · intro ev hev
      obtain ⟨w, hw, hws⟩ := pairEvts_start_offset_mem cs ce rest ev hev
      rw [hws]
      dsimp only
      apply sub_le_sub_right
      refine max_le_max ?_ (le_refl cs)
      exact (List.pairwise_cons.mp hsort).1 w (List.mem_cons_of_mem _ hw)
    · exact ih (List.pairwise_cons.mp (List.pairwise_cons.mp hsort).2).2

theorem pairEvts_ne_nil (cs ce : ℚ) : ∀ l : List Word, l ≠ [] → pairEvts cs ce l ≠ [] := by
  intro l
  match l with
  | [] => intro h; exact absurd rfl h
  | [w] => intro _; simp [pairEvts]
  | w1 :: w2 :: rest => intro _; simp [pairEvts]

theorem pairEvts_last_end (cs ce : ℚ) :
    ∀ l : List Word, Odd l.length →
      ((pairEvts cs ce l).getLast?).map CaptionEvent.end_offset = some (ce - cs) := by
  intro l
  induction l using listPairInduction with
  | nil => intro hodd; simp [Nat.odd_iff] at hodd
  | single w => intro _; simp [pairEvts]
  | pair w1 w2 rest ih =>
    intro hodd
    have hodd' : Odd rest.length := by
      rw [List.length_cons, List.length_cons] at hodd
      rcases hodd with ⟨m, hm⟩
      exact ⟨m - 1, by omega⟩
    have hne : rest ≠ [] := by
      intro hcon
      rw [hcon] at hodd'
      simp [Nat.odd_iff] at hodd'
    have hpe := pairEvts_ne_nil cs ce rest hne
    simp only [pairEvts]
    obtain ⟨e, t, het⟩ := List.exists_cons_of_ne_nil hpe
    rw [het, List.getLast?_cons_cons, ← het]
    exact ih hodd'

theorem pairEvts_head_start (cs ce : ℚ) (w : Word) (t : List Word) :
    ∃ ev tl, pairEvts cs ce (w :: t) = ev :: tl ∧
      ev.start_offset = max w.start cs - cs := by
  match t with
  | [] => exact ⟨_, _, rfl, rfl⟩
  | w2 :: t2 => exact ⟨_, _, rfl, rfl⟩

theorem pairEvts_chain (cs ce : ℚ) :
    ∀ l : List Word, List.Pairwise (fun a b => a.«end» ≤ b.start) l →
      List.Chain' (fun e1 e2 => e1.end_offset ≤ e2.start_offset) (pairEvts cs ce l) := by
  intro l
  induction l using listPairInduction with
  | nil => intro _; simp [pairEvts]
  | single w => intro _; simp [pairEvts]
  | pair w1 w2 rest ih =>
    intro hp
    have hp2 := (List.pairwise_cons.mp hp).2
    have hprest := (List.pairwise_cons.mp hp2).2
    simp only [pairEvts]
    cases rest with
    | nil => simp [pairEvts]
    | cons w3 t3 =>
      obtain ⟨e, tl, het, hes⟩ := pairEvts_head_start cs ce w3 t3
      rw [het]
      refine List.Chain'.cons ?_ ?_
      · rw [hes]
        dsimp only
        apply sub_le_sub_right
        have h23 : w2.«end» ≤ w3.start := (List.pairwise_cons.mp hp2).1 w3 (by simp)
        exact le_trans (min_le_left _ _) (le_trans h23 (le_max_left _ _))
      · rw [← het]
        exact ih hprest

/-- Claim C5 (amended): for a word sequence ordered by start with
`start ≤ end` per word, and a window with `start ≤ end` (the Window data
model guarantees a nonnegative duration), `build_ass` never emits an
event with `start_offset > end_offset`; and whenever the number of words
overlapping the window is odd (a partial buffer remains after the loop),
the last emitted event's end offset equals the window duration
`window.end − window.start`.  The unamended "whenever at least one word
overlaps" is false for an even, positive number of overlapping words: the
last event then ends at the last word's clipped end (see the
counterexample). -/
theorem build_ass_events_start_le_end_and_last (words : List Word) (cs ce : ℚ)
    (hsort : List.Pairwise (fun a b => a.start ≤ b.start) words)
    (hse : ∀ w ∈ words, w.start ≤ w.«end»)
    (hwin : cs ≤ ce) :
    (∀ ev ∈ build_ass_events words cs ce, ev.start_offset ≤ ev.end_offset) ∧
    (Odd (words.filter (keepWord cs ce)).length →
      ((build_ass_events words cs ce).getLast?).map CaptionEvent.end_offset =
        some (ce - cs)) := by
  rw [build_ass_events_eq]
  constructor
  · exact pairEvts_start_le_end cs ce hwin _ (hsort.filter _)
      (fun w hw => hse w (List.mem_filter.mp hw).1)
      (fun w hw => keepWord_bounds (List.mem_filter.mp hw).2)
  · intro hodd
    exact pairEvts_last_end cs ce _ hodd

/-- Witness for C5 (amended) at one overlapping word, window `[0, 20]`. -/
theorem build_ass_events_start_le_end_and_last_witness :
    List.Pairwise (fun a b => a.start ≤ b.start) [(⟨"hi", 0, 1⟩ : Word)] ∧
    (∀ w ∈ [(⟨"hi", 0, 1⟩ : Word)], w.start ≤ w.«end») ∧
    ((0 : ℚ) ≤ 20) ∧
    ((∀ ev ∈ build_ass_events [⟨"hi", 0, 1⟩] 0 20,
        ev.start_offset ≤ ev.end_offset) ∧
     (Odd ([(⟨"hi", 0, 1⟩ : Word)].filter (keepWord 0 20)).length →
       ((build_ass_events [⟨"hi", 0, 1⟩] 0 20).getLast?).map CaptionEvent.end_offset =
         some (20 - 0))) := by
  have h1 : List.Pairwise (fun a b : Word => a.start ≤ b.start) [(⟨"hi", 0, 1⟩ : Word)] :=
    List.pairwise_singleton _ _
  have h2 : ∀ w ∈ [(⟨"hi", 0, 1⟩ : Word)], w.start ≤ w.«end» := by
    intro w hw
    rw [List.mem_singleton] at hw
    rw [hw]
    norm_num
  have h3 : (0 : ℚ) ≤ 20 := by norm_num
  exact ⟨h1, h2, h3, build_ass_events_start_le_end_and_last _ 0 20 h1 h2 h3⟩

/-- Counterexample to C5 as stated: two overlapping words, window
`[0, 20]` — the (sorted, well-formed) input produces a single event
ending at `2`, not at the window duration `20`, although a word overlaps
the window. -/
theorem build_ass_events_last_end_cex :
    List.Pairwise (fun a b => a.start ≤ b.start)
      [(⟨"hi", 0, 1⟩ : Word), ⟨"there", 1, 2⟩] ∧
    ([(⟨"hi", 0, 1⟩ : Word), ⟨"there", 1, 2⟩].all
      (fun w => decide (w.start ≤ w.«end»))) = true ∧
    keepWord 0 20 ⟨"hi", 0, 1⟩ = true ∧
    build_ass_events [⟨"hi", 0, 1⟩, ⟨"there", 1, 2⟩] 0 20 = [⟨0, 2, "hi there"⟩] ∧
    ((build_ass_events [⟨"hi", 0, 1⟩, ⟨"there", 1, 2⟩] 0 20).getLast?).map
        CaptionEvent.end_offset ≠ some (20 - 0) := by
  have hb : build_ass_events [⟨"hi", 0, 1⟩, ⟨"there", 1, 2⟩] 0 20 =
      [⟨0, 2, "hi there"⟩] := by
    simp [build_ass_events, assStep, finishState, MAX_WORDS_ON_SCREEN]
    norm_num
    rfl
  refine ⟨?_, ?_, ?_, hb, ?_⟩
  · norm_num [List.pairwise_cons]
  · norm_num
  · norm_num [keepWord]
  · rw [hb]
    norm_num

/-- Claim C6 (amended): when the word spans are pairwise non-overlapping
(each earlier word's end is at most each later word's start), the caption
events built by `build_ass` are pairwise non-overlapping in clip-local
time: each event's end offset is at most the next event's start offset.
The unamended claim — ordering by start only, overlapping spans permitted
as by the data model — is false (see the counterexample). -/
theorem build_ass_events_nonoverlapping (words : List Word) (cs ce : ℚ)
    (hnov : List.Pairwise (fun a b => a.«end» ≤ b.start) words) :
    List.Chain' (fun e1 e2 => e1.end_offset ≤ e2.start_offset)
      (build_ass_events words cs ce) := by
  rw [build_ass_events_eq]
  exact pairEvts_chain cs ce _ (hnov.filter _)

/-- Witness for C6 (amended) at two non-overlapping words, window `[0, 20]`. -/
theorem build_ass_events_nonoverlapping_witness :
    List.Pairwise (fun a b => a.«end» ≤ b.start)
      [(⟨"hi", 0, 1⟩ : Word), ⟨"there", 1, 2⟩] ∧
    List.Chain' (fun e1 e2 => e1.end_offset ≤ e2.start_offset)
      (build_ass_events [⟨"hi", 0, 1⟩, ⟨"there", 1, 2⟩] 0 20) := by
  have h1 : List.Pairwise (fun a b : Word => a.«end» ≤ b.start)
      [(⟨"hi", 0, 1⟩ : Word), ⟨"there", 1, 2⟩] := by
    norm_num [List.pairwise_cons]
  exact ⟨h1, build_ass_events_nonoverlapping _ 0 20 h1⟩

/-- Counterexample to C6 as stated: four words sorted by start with
overlapping spans (permitted by the data model) yield two events
`[0, 4]` and `[2, 6]` that overlap in clip-local time. -/
theorem build_ass_events_overlap_cex :
    List.Pairwise (fun a b => a.start ≤ b.start)
      [(⟨"a", 0, 3⟩ : Word), ⟨"b", 1, 4⟩, ⟨"c", 2, 5⟩, ⟨"d", 3, 6⟩] ∧
    ([(⟨"a", 0, 3⟩ : Word), ⟨"b", 1, 4⟩, ⟨"c", 2, 5⟩, ⟨"d", 3, 6⟩].all
      (fun w => decide (w.start ≤ w.«end»))) = true ∧
    build_ass_events [⟨"a", 0, 3⟩, ⟨"b", 1, 4⟩, ⟨"c", 2, 5⟩, ⟨"d", 3, 6⟩] 0 20 =
      [⟨0, 4, "a b"⟩, ⟨2, 6, "c d"⟩] ∧
    ¬ List.Chain' (fun e1 e2 => e1.end_offset ≤ e2.start_offset)
      (build_ass_events [⟨"a", 0, 3⟩, ⟨"b", 1, 4⟩, ⟨"c", 2, 5⟩, ⟨"d", 3, 6⟩] 0 20) := by
  have hb : build_ass_events [⟨"a", 0, 3⟩, ⟨"b", 1, 4⟩, ⟨"c", 2, 5⟩, ⟨"d", 3, 6⟩] 0 20 =
      [⟨0, 4, "a b"⟩, ⟨2, 6, "c d"⟩] := by
    simp [build_ass_events, assStep, finishState, MAX_WORDS_ON_SCREEN]
    norm_num
    exact ⟨rfl, rfl⟩
  refine ⟨?_, ?_, hb, ?_⟩
  · simp [List.pairwise_cons]
    norm_num
  · simp
    norm_num
  · rw [hb]
    intro hchain
    have h := (List.chain'_cons.mp hchain).1
    dsimp only at h
    norm_num at h

/-- Claim C7: for a word sequence ordered by start with `start ≤ end` per
word, and a window with `window.start ≤ window.end`, `build_ass` emits
events in non-decreasing `start_offset` order, and every emitted start
and end offset lies within `[0, window.end − window.start]`. -/
theorem build_ass_events_ordered_and_bounded (words : List Word) (cs ce : ℚ)
    (hsort : List.Pairwise (fun a b => a.start ≤ b.start) words)
    (_hse : ∀ w ∈ words, w.start ≤ w.«end»)
    (hwin : cs ≤ ce) :
    (build_ass_events words cs ce).Pairwise
      (fun e1 e2 => e1.start_offset ≤ e2.start_offset) ∧
    ∀ ev ∈ build_ass_events words cs ce,
      0 ≤ ev.start_offset ∧ ev.start_offset ≤ ce - cs ∧
      0 ≤ ev.end_offset ∧ ev.end_offset ≤ ce - cs := by
  rw [build_ass_events_eq]
  exact ⟨pairEvts_starts_sorted cs ce _ (hsort.filter _),
    pairEvts_offsets_in_range cs ce hwin _
      (fun w hw => keepWord_bounds (List.mem_filter.mp hw).2)⟩

/-- Witness for C7 at two words, window `[0, 20]`. -/
theorem build_ass_events_ordered_and_bounded_witness :
    List.Pairwise (fun a b => a.start ≤ b.start)
      [(⟨"hi", 0, 1⟩ : Word), ⟨"there", 1, 2⟩] ∧
    (∀ w ∈ [(⟨"hi", 0, 1⟩ : Word), ⟨"there", 1, 2⟩], w.start ≤ w.«end») ∧
    ((0 : ℚ) ≤ 20) ∧
    ((build_ass_events [⟨"hi", 0, 1⟩, ⟨"there", 1, 2⟩] 0 20).Pairwise
      (fun e1 e2 => e1.start_offset ≤ e2.start_offset) ∧
     ∀ ev ∈ build_ass_events [⟨"hi", 0, 1⟩, ⟨"there", 1, 2⟩] 0 20,
       0 ≤ ev.start_offset ∧ ev.start_offset ≤ 20 - 0 ∧
       0 ≤ ev.end_offset ∧ ev.end_offset ≤ 20 - 0) := by
  have h1 : List.Pairwise (fun a b : Word => a.start ≤ b.start)
      [(⟨"hi", 0, 1⟩ : Word), ⟨"there", 1, 2⟩] := by
    norm_num [List.pairwise_cons]
  have h2 : ∀ w ∈ [(⟨"hi", 0, 1⟩ : Word), ⟨"there", 1, 2⟩], w.start ≤ w.«end» := by
    intro w hw
    rcases List.mem_cons.mp hw with rfl | hw2
    · norm_num
    · rw [List.mem_singleton] at hw2
      rw [hw2]
      norm_num
  have h3 : (0 : ℚ) ≤ 20 := by norm_num
  exact ⟨h1, h2, h3, build_ass_events_ordered_and_bounded _ 0 20 h1 h2 h3⟩
